import Mathlib

set_option maxRecDepth 100000

/-!
Verification development for the directional shell-expansion engine
(`expandDirectional` and its sibling prototypes).

Coordinates are modelled exactly in fixed-point arithmetic: one source unit
equals `U = 10^12` model units, so the decimal constants appearing in the
source (`1e-10` rounding tolerance, `EPS = 1e-5`, …) are exact integers here.
All geometric inputs used in the theorems have coordinates that are exact
multiples of `10^-12`, so this fixed-point model is a faithful image of the
floating-point values the source would compute on them.  A second, rational
layer models the dot-product face classifier, whose claims quantify over
arbitrary real tolerances.
-/

/-- One source-code length unit in fixed-point model units. -/
def U : ℤ := 1000000000000

/-- The source constant `EPS = 1e-5`, in fixed-point model units. -/
def EPS : ℤ := 10000000

/-- A point or direction, `vec3` in the source. -/
abbrev V3 : Type := ℤ × ℤ × ℤ

/-- Componentwise vector addition, `vec3.add` in the source. -/
def vadd (d v : V3) : V3 := (d.1 + v.1, d.2.1 + v.2.1, d.2.2 + v.2.2)

/-- Componentwise vector subtraction, `vec3.subtract` in the source. -/
def vsub (a b : V3) : V3 := (a.1 - b.1, a.2.1 - b.2.1, a.2.2 - b.2.2)

/-- A polygon is its ordered vertex loop, `poly3` in the source. -/
abbrev Poly3 : Type := List V3

/-- A mesh is an ordered collection of polygons, `geom3` in the source. -/
abbrev Mesh : Type := List Poly3

/-- Consecutive (non-cyclic) vertex pairs of a list. -/
def pathEdges {α : Type} : List α → List (α × α)
  | a :: b :: t => (a, b) :: pathEdges (b :: t)
  | _ => []

/-- The directed edges `(v_i, v_{(i+1) mod n})` of a vertex loop, in the order
the source loops `for (let i = 0; i < vertices.length; i++)` visits them. -/
def cycEdges {α : Type} : List α → List (α × α)
  | [] => []
  | a :: t => pathEdges (a :: t) ++ [(t.getLastD a, a)]

/-- All directed edges of a mesh, polygon by polygon. -/
def meshDirectedEdges (m : Mesh) : List (V3 × V3) :=
  (m.map cycEdges).flatten

/-- All vertices of a mesh in traversal order (with repetitions). -/
def meshVertices (m : Mesh) : List V3 := m.flatten

/-- A mesh is a closed 2-manifold: every directed edge occurs exactly once,
its reversal occurs exactly once (the adjacent polygon traverses the shared
edge in the opposite direction), and no edge is degenerate.  This is the
spec's watertightness: every edge is shared by exactly two polygons with
opposite traversal direction. -/
def isClosed2Manifold (m : Mesh) : Prop :=
  ∀ e ∈ meshDirectedEdges m,
    (meshDirectedEdges m).count e = 1 ∧
    (meshDirectedEdges m).count (Prod.swap e) = 1 ∧
    e.1 ≠ e.2

instance isClosed2ManifoldDecidable (m : Mesh) : Decidable (isClosed2Manifold m) :=
  List.decidableBAll _ _

/-- The source rounding `Math.round(num / 1e-10) * 1e-10` on fixed-point
values: `1e-10` is `100` model units and `Math.round x = ⌊x + 1/2⌋`. -/
def roundCoord (k : ℤ) : ℤ := ((k + 50).fdiv 100) * 100

/-- Componentwise coordinate rounding used by `createEdgeKey`. -/
def roundV (v : V3) : V3 := (roundCoord v.1, roundCoord v.2.1, roundCoord v.2.2)

/-- Lexicographic order on vertices; stands in for the source's ordering of
the two stringified vertices (any total order yields the same canonical
unordered pair, which is all the key is used for). -/
def lexLe (a b : V3) : Prop :=
  a.1 < b.1 ∨ (a.1 = b.1 ∧ (a.2.1 < b.2.1 ∨ (a.2.1 = b.2.1 ∧ a.2.2 ≤ b.2.2)))

instance lexLeDecidable (a b : V3) : Decidable (lexLe a b) := by
  unfold lexLe; infer_instance

/-- Canonically ordered pair: the source's `key1 < key2 ? key1|key2 : key2|key1`. -/
def canonPair (a b : V3) : V3 × V3 := if lexLe a b then (a, b) else (b, a)

/-- The edge key of `createEdgeKey` in `expandDirectional.js`: round each
coordinate to the fixed `1e-10` tolerance, then form the canonical
unordered pair. -/
def createEdgeKey (e : V3 × V3) : V3 × V3 := canonPair (roundV e.1) (roundV e.2)

/-- The edge key of `mapPlaneToEdge` (part_001/part_003): `toString` of the
raw coordinates, i.e. the canonical unordered pair of the exact vertices,
with no rounding. -/
def mapPlaneToEdgeKey (e : V3 × V3) : V3 × V3 := canonPair e.1 e.2

/-- One entry of the source's edge `Map`: the canonical key, the first-seen
directed edge `[v1, v2]`, and the occurrence count (equivalently, the length
of the adjacent-planes list). -/
structure EdgeEntry where
  key : V3 × V3
  v1 : V3
  v2 : V3
  count : ℕ
deriving DecidableEq

/-- Register one directed edge in the edge map, as `edgeMap.set`/`count++`
does: bump the entry with a matching key, else append a fresh entry (JS `Map`
iterates in insertion order). -/
def insertEdge (keyf : V3 × V3 → V3 × V3) : List EdgeEntry → V3 × V3 → List EdgeEntry
  | [], e => [⟨keyf e, e.1, e.2, 1⟩]
  | en :: rest, e =>
    if en.key = keyf e then ⟨en.key, en.v1, en.v2, en.count + 1⟩ :: rest
    else en :: insertEdge keyf rest e

/-- The edge map built by the first pass over all polygons. -/
def buildEdgeMap (keyf : V3 × V3 → V3 × V3) (m : Mesh) : List EdgeEntry :=
  (meshDirectedEdges m).foldl (insertEdge keyf) []

/-- The keys of the edge-map entries, in map order. -/
def entriesKeys (l : List EdgeEntry) : List (V3 × V3) := l.map EdgeEntry.key

/-- Total occurrence count stored under a given key. -/
def keyCount (l : List EdgeEntry) (k : V3 × V3) : ℕ :=
  (l.map fun en => if en.key = k then en.count else 0).sum

/-- Options of the `expandDirectional.js` boundary-wall variant. -/
structure OptsA where
  delta : ℤ
  direction : String

/-- The `switch (direction)` of the boundary-wall variant: an axis vector
scaled by `delta`, defaulting to the y axis. -/
def directionVectorA (o : OptsA) : V3 :=
  if o.direction = "x" then (o.delta, 0, 0)
  else if o.direction = "y" then (0, o.delta, 0)
  else if o.direction = "z" then (0, 0, o.delta)
  else (0, o.delta, 0)

/-- Translated copy of a polygon with the vertex order reversed, as step 2 of
the boundary-wall variant builds it. -/
def translateRevPoly (d : V3) (p : Poly3) : Poly3 := (p.map (vadd d)).reverse

/-- The wall quads of the boundary-wall variant: one quad
`[v1, v1+d, v2+d, v2]` per edge-map entry with occurrence count 1, in map
iteration order. -/
def wallsA (d : V3) (m : Mesh) : List Poly3 :=
  (buildEdgeMap createEdgeKey m).filterMap fun en =>
    if en.count = 1 then some [en.v1, vadd d en.v1, vadd d en.v2, en.v2] else none

/-- The boundary-wall variant of `expandDirectional` (expandDirectional.js
lines 14-106; identically part_001 lines 147-227): original polygons, then
translated reversed copies, then walls for boundary edges. -/
def expandDirectionalWalls (o : OptsA) (m : Mesh) : Mesh :=
  m ++ m.map (translateRevPoly (directionVectorA o)) ++ wallsA (directionVectorA o) m

/-- Triple product `a ⋅ (b × c)`. -/
def det3 (a b c : V3) : ℤ :=
  a.1 * (b.2.1 * c.2.2 - b.2.2 * c.2.1)
    - a.2.1 * (b.1 * c.2.2 - b.2.2 * c.1)
    + a.2.2 * (b.1 * c.2.1 - b.2.1 * c.1)

/-- Six times the signed volume contribution of one polygon (fan
triangulation from its first vertex). -/
def polyVol6 : Poly3 → ℤ
  | [] => 0
  | v0 :: rest => ((pathEdges rest).map fun e => det3 v0 e.1 e.2).sum

/-- Six times the signed enclosed volume of a mesh (divergence theorem). -/
def signedVol6 (m : Mesh) : ℤ := (m.map polyVol6).sum

/-- Unit tetrahedron (scaled by `U`), oriented with outward normals. -/
def tetMesh : Mesh :=
  [[(0, 0, 0), (0, U, 0), (U, 0, 0)],
   [(0, 0, 0), (U, 0, 0), (0, 0, U)],
   [(0, 0, 0), (0, 0, U), (0, U, 0)],
   [(U, 0, 0), (0, U, 0), (0, 0, U)]]

/-- A single unit square polygon in the y = 0 plane: an open mesh whose four
edges are all boundary edges. -/
def sqMesh : Mesh :=
  [[(0, 0, 0), (0, 0, U), (U, 0, U), (U, 0, 0)]]

/-- Two copies of the tetrahedron, the second translated by `1e-11` (10 model
units, strictly below the `1e-10` rounding tolerance) along x. -/
def twoTets : Mesh :=
  tetMesh ++ tetMesh.map (List.map (vadd (10, 0, 0)))

/-- Translate both endpoints of a directed edge. -/
def addE (d : V3) (e : V3 × V3) : V3 × V3 := (vadd d e.1, vadd d e.2)

/-- Untranslate both endpoints of a directed edge. -/
def subE (d : V3) (e : V3 × V3) : V3 × V3 := (vsub e.1 d, vsub e.2 d)

/-- No undirected edge of the translated copy coincides with an undirected
edge of the original mesh (fails for `delta = 0`, where the two copies have
identical edges). -/
def translatedEdgeDisjoint (m : Mesh) (d : V3) : Prop :=
  ∀ e1 ∈ meshDirectedEdges m, ∀ e2 ∈ meshDirectedEdges m,
    addE d e2 ≠ e1 ∧ addE d e2 ≠ Prod.swap e1

instance translatedEdgeDisjointDecidable (m : Mesh) (d : V3) :
    Decidable (translatedEdgeDisjoint m d) := by
  unfold translatedEdgeDisjoint; infer_instance

/-- Rounding at the `1e-10` key tolerance is injective on the vertices of the
mesh (no two distinct vertices collapse to the same rounded key). -/
def roundInjectiveOn (m : Mesh) : Prop :=
  ∀ u ∈ meshVertices m, ∀ v ∈ meshVertices m, roundV u = roundV v → u = v

instance roundInjectiveOnDecidable (m : Mesh) : Decidable (roundInjectiveOn m) := by
  unfold roundInjectiveOn; infer_instance

/-- Options of the part_001 y-direction pillar variant (`expandUp` defaults
true, `expandDown` defaults false in the source). -/
structure OptsU where
  delta : ℤ
  expandUp : Bool
  expandDown : Bool

/-- The `deltaY` of the pillar variant: `delta * ((expandUp?1:0)+(expandDown?1:0))`. -/
def deltaYOf (o : OptsU) : ℤ :=
  o.delta * ((if o.expandUp then 1 else 0) + (if o.expandDown then 1 else 0))

/-- The `yOffset` of the pillar variant:
`expandUp && expandDown ? 0 : expandUp ? delta : -delta`. -/
def yOffsetOf (o : OptsU) : ℤ :=
  if o.expandUp && o.expandDown then 0 else if o.expandUp then o.delta else -o.delta

/-- The XZ bounding rectangle of `getXZBounds`. -/
structure BoundsXZ where
  minX : ℤ
  maxX : ℤ
  minZ : ℤ
  maxZ : ℤ
deriving DecidableEq

/-- Fold one vertex into the running bounds. -/
def boundsStep (b : BoundsXZ) (v : V3) : BoundsXZ :=
  ⟨min b.minX v.1, max b.maxX v.1, min b.minZ v.2.2, max b.maxZ v.2.2⟩

/-- The source `getXZBounds`: min/max of the x and z coordinates over all
vertices.  The source starts from `±Infinity`; on a nonempty mesh this equals
folding from the first vertex, which is how it is modelled here (the empty
mesh never reaches the pillar stage in any claim). -/
def getXZBounds (m : Mesh) : BoundsXZ :=
  match meshVertices m with
  | [] => ⟨0, 0, 0, 0⟩
  | v :: vs => vs.foldl boundsStep ⟨v.1, v.1, v.2.2, v.2.2⟩

/-- The source `isWithinXZBounds`, evaluated on a point given in doubled
coordinates (`p2 = 2p` avoids the `/2` of edge midpoints): `p` is inside the
rectangle iff `2*minX ≤ p2.x ≤ 2*maxX` and likewise for z. -/
def isWithinXZBounds2 (p2 : V3) (b : BoundsXZ) : Bool :=
  decide (2 * b.minX ≤ p2.1) && decide (p2.1 ≤ 2 * b.maxX) &&
  decide (2 * b.minZ ≤ p2.2.2) && decide (p2.2.2 ≤ 2 * b.maxZ)

/-- An axis-aligned box, stored as its doubled center `c2` and full edge
sizes `sz`: the real box is the set of points `p` with `|2p - c2| ≤ sz`
componentwise.  This doubled representation keeps every coordinate an exact
integer (centers are midpoints, i.e. halves of vertex sums). -/
structure Box where
  c2 : V3
  sz : V3
deriving DecidableEq

/-- Membership of a point (given in doubled coordinates `p2 = 2p`) in a box. -/
def boxContains (b : Box) (p2 : V3) : Bool :=
  decide (b.c2.1 - b.sz.1 ≤ p2.1) && decide (p2.1 ≤ b.c2.1 + b.sz.1) &&
  decide (b.c2.2.1 - b.sz.2.1 ≤ p2.2.1) && decide (p2.2.1 ≤ b.c2.2.1 + b.sz.2.1) &&
  decide (b.c2.2.2 - b.sz.2.2 ≤ p2.2.2) && decide (p2.2.2 ≤ b.c2.2.2 + b.sz.2.2)

/-- The box of the source `createYPillar(center, deltaY, xSize, zSize)`: it
spans `center ± (xSize/2, deltaY, zSize/2)`.  `center2` is the doubled
center; the y half-extent argument is passed in doubled form `dy2`. -/
def createYPillarBox (center2 : V3) (dy2 xSize zSize : ℤ) : Box :=
  ⟨center2, (xSize, dy2, zSize)⟩

/-- Squared Euclidean norm of a vector. -/
def normSqZ (v : V3) : ℤ := v.1 * v.1 + v.2.1 * v.2.1 + v.2.2 * v.2.2

/-- Coordinate-sum length of a vector.  Modelled from the spec: stands for
the Euclidean `vec3.distance`; it coincides with it exactly on axis-aligned
edges, which is the only shape of edge occurring in the meshes examined
here. -/
def axisLen (v : V3) : ℤ := |v.1| + |v.2.1| + |v.2.2|

/-- The cross product `(v1-v0) × (v2-v1)` of the first two boundary edges.
Modelled from the spec: stands for the plane oracle `poly3.plane` (an
external primitive); for a planar convex loop this vector points along the
right-hand-rule normal, and for the unit square faces used here it is
exactly the unit normal scaled by `U²`. -/
def crossNormal (p : Poly3) : V3 :=
  match p with
  | v0 :: v1 :: v2 :: _ =>
    let a := vsub v1 v0
    let b := vsub v2 v1
    (a.2.1 * b.2.2 - a.2.2 * b.2.1, a.2.2 * b.1 - a.1 * b.2.2, a.1 * b.2.1 - a.2.1 * b.1)
  | _ => (0, 0, 0)

/-- The pillar variant's test `Math.abs(normal[1]) > 0.1` on the unit normal,
restated exactly for the unnormalized cross vector `n`:
`|n.y|/|n| > 1/10  ↔  100·n.y² > |n|²`. -/
def isYFacing (n : V3) : Bool := decide (100 * (n.2.1 * n.2.1) > normSqZ n)

/-- The `extrudeY` accumulation of the pillar variant:
`if (expandUp && yComponent > 0) extrudeY += delta; if (expandDown && yComponent < 0) extrudeY -= delta`
where `yComponent = normal[1] > 0 ? 1 : -1`. -/
def extrudeYOf (o : OptsU) (n : V3) : ℤ :=
  let yc : ℤ := if n.2.1 > 0 then 1 else -1
  (if o.expandUp && decide (yc > 0) then o.delta else 0) +
  (if o.expandDown && decide (yc < 0) then -o.delta else 0)

/-- Running xz bounding rectangle of one polygon (for the slab footprint). -/
def polyBoundsXZ (p : Poly3) : BoundsXZ :=
  match p with
  | [] => ⟨0, 0, 0, 0⟩
  | v :: vs => vs.foldl boundsStep ⟨v.1, v.1, v.2.2, v.2.2⟩

/-- The slab produced for one aligned face.  Modelled from the spec: the
external `extrudePolygon(extrudevector, translatedpolygon)` applied to a
horizontal rectangle translated by `-extrudeY` and extruded by
`2·extrudeY` along y yields the prism over the face's footprint spanning
`y0 ± extrudeY`, where `y0` is the face's y coordinate. -/
def slabBoxOf (p : Poly3) (extrudeY : ℤ) : Box :=
  let bd := polyBoundsXZ p
  let y0 := (p.headD (0, 0, 0)).2.1
  ⟨(bd.minX + bd.maxX, 2 * y0, bd.minZ + bd.maxZ),
   (bd.maxX - bd.minX, 2 * |extrudeY|, bd.maxZ - bd.minZ)⟩

/-- The extruded slabs of the pillar variant: one per face whose (unit)
normal has `|n.y| > 0.1` and whose accumulated `extrudeY` exceeds `EPS`. -/
def slabs3 (o : OptsU) (m : Mesh) : List Box :=
  m.filterMap fun p =>
    let n := crossNormal p
    if isYFacing n then
      let ey := extrudeYOf o n
      if |ey| > EPS then some (slabBoxOf p ey) else none
    else none

/-- The edge map of the pillar variant (`mapPlaneToEdge` uses raw `toString`
keys, i.e. exact coordinates). -/
def edgeEntries3 (m : Mesh) : List EdgeEntry := buildEdgeMap mapPlaneToEdgeKey m

/-- The vertex map of the pillar variant in insertion order (`mapPlaneToVertex`
with raw `toString` keys): each distinct vertex once, first occurrence first. -/
def vertexEntries3 (m : Mesh) : List V3 :=
  (meshVertices m).foldl (fun acc v => if v ∈ acc then acc else acc ++ [v]) []

/-- The edge pillars of the pillar variant: for each edge-map entry whose
midpoint lies within the XZ bounds, a `createYPillar` at
`[mid.x, mid.y + yOffset, mid.z]` with y half-extent `deltaY/2` and cross
sizes `edgeLength` along the dominant axis (`|edgeDir| > 0.5`), `EPS*4`
otherwise. -/
def edgePillars3 (o : OptsU) (m : Mesh) : List Box :=
  let bd := getXZBounds m
  (edgeEntries3 m).filterMap fun en =>
    let mid2 := vadd en.v1 en.v2
    if isWithinXZBounds2 mid2 bd then
      let ev := vsub en.v2 en.v1
      let len := axisLen ev
      let xSize := if decide (4 * (ev.1 * ev.1) > normSqZ ev) then len else EPS * 4
      let zSize := if decide (4 * (ev.2.2 * ev.2.2) > normSqZ ev) then len else EPS * 4
      some (createYPillarBox (vadd mid2 (0, 2 * yOffsetOf o, 0)) (deltaYOf o) xSize zSize)
    else none

/-- The vertex pillars of the pillar variant: for each distinct vertex within
the XZ bounds, a `createYPillar` at `[v.x, v.y + yOffset, v.z]` with y
half-extent `deltaY/2` and default cross sizes `EPS*2`. -/
def vertexPillars3 (o : OptsU) (m : Mesh) : List Box :=
  let bd := getXZBounds m
  (vertexEntries3 m).filterMap fun v =>
    if isWithinXZBounds2 (vadd v v) bd then
      some (createYPillarBox (vadd (vadd v v) (0, 2 * yOffsetOf o, 0)) (deltaYOf o)
        (EPS * 2) (EPS * 2))
    else none

/-- All connector boxes (edge pillars then vertex pillars) the pillar variant
emits. -/
def connectorBoxes (o : OptsU) (m : Mesh) : List Box :=
  edgePillars3 o m ++ vertexPillars3 o m

/-- The point set of the pillar variant's result.  Modelled from the spec:
`unionGeom3Sub` accumulation is point-set union and `retessellate` preserves
the point set, so the result is the union of the slabs and pillars (the
variant never adds the non-aligned original faces themselves). -/
def inResult3 (o : OptsU) (m : Mesh) (p2 : V3) : Bool :=
  (slabs3 o m ++ connectorBoxes o m).any fun b => boxContains b p2

/-- Does every corner of the box lie inside the XZ rectangle?  (The corners
realise the extreme coordinates, so this is exactly: every vertex of the
pillar lies within the footprint.) -/
def boxWithinXZ (b : Box) (bd : BoundsXZ) : Bool :=
  decide (2 * bd.minX ≤ b.c2.1 - b.sz.1) && decide (b.c2.1 + b.sz.1 ≤ 2 * bd.maxX) &&
  decide (2 * bd.minZ ≤ b.c2.2.2 - b.sz.2.2) && decide (b.c2.2.2 + b.sz.2.2 ≤ 2 * bd.maxZ)

/-- The unit cube `[0,1]³` (scaled by `U`), all faces wound outward. -/
def unitCube : Mesh :=
  [[(0, 0, 0), (U, 0, 0), (U, 0, U), (0, 0, U)],
   [(0, U, 0), (0, U, U), (U, U, U), (U, U, 0)],
   [(0, 0, 0), (0, 0, U), (0, U, U), (0, U, 0)],
   [(U, 0, 0), (U, U, 0), (U, U, U), (U, 0, U)],
   [(0, 0, 0), (0, U, 0), (U, U, 0), (U, 0, 0)],
   [(0, 0, U), (U, 0, U), (U, U, U), (0, U, U)]]

/-- The box `[0,1] × [0,2] × [0,1]` (scaled by `U`) that the claim says the
one-sided expansion of the unit cube yields. -/
def claimedBox121 : Box := ⟨(U, 2 * U, U), (U, 2 * U, U)⟩

/-- A vector of rationals, for the dot-product classifier layer. -/
abbrev QV3 : Type := ℚ × ℚ × ℚ

/-- Rational dot product, `vec3.dot` in the source. -/
def dotQ (a b : QV3) : ℚ := a.1 * b.1 + a.2.1 * b.2.1 + a.2.2 * b.2.2

/-- Rational scalar multiple, `vec3.scale` in the source. -/
def smulQ (c : ℚ) (a : QV3) : QV3 := (c * a.1, c * a.2.1, c * a.2.2)

/-- Squared norm of a rational vector. -/
def normSqQ (a : QV3) : ℚ := a.1 * a.1 + a.2.1 * a.2.1 + a.2.2 * a.2.2

/-- Rational polygon for the classifier layer. -/
abbrev QPoly : Type := List QV3

/-- The `switch (direction)` of the tolerance variant: a unit axis vector,
defaulting to the y axis. -/
def targetDirectionQ (dir : String) : QV3 :=
  if dir = "x" then (1, 0, 0)
  else if dir = "y" then (0, 1, 0)
  else if dir = "z" then (0, 0, 1)
  else (0, 1, 0)

/-- The alignment test of the tolerance variant (expandDirectional.js lines
171-201): `Math.abs(dotProduct) > tolerance || Math.abs(dotProductNeg) > tolerance`
with `dotProduct = dot(normal, target)` and
`dotProductNeg = dot(normal, scale(target, -1))`. -/
def classifyAligned (normal target : QV3) (tolerance : ℚ) : Bool :=
  decide (|dotQ normal target| > tolerance) ||
  decide (|dotQ normal (smulQ (-1) target)| > tolerance)

/-- Options of the tolerance variant. -/
structure OptsB where
  delta : ℚ
  direction : String
  tolerance : ℚ

/-- Translate a rational polygon. -/
def translateQPoly (d : QV3) (p : QPoly) : QPoly :=
  p.map fun v => (d.1 + v.1, d.2.1 + v.2.1, d.2.2 + v.2.2)

/-- The tolerance variant of `expandDirectional` (expandDirectional.js lines
143-205), parameterized over its external collaborators (`poly3.plane`,
`unionGeom3Sub`, `retessellate`, `extrudePolygon`, `geom3.create`), which the
spec treats as black boxes: fold over the polygons, extruding each aligned
face (translated by half the extrude vector) and unioning each non-aligned
face as-is, then retessellate. -/
def expandDirectionalTol {G : Type} (planeOf : QPoly → QV3) (unionG : G → G → G)
    (retess : G → G) (extrudeP : QV3 → QPoly → G) (singleG : QPoly → G) (emptyG : G)
    (o : OptsB) (polys : List QPoly) : G :=
  retess (polys.foldl
    (fun result polygon =>
      let normal := planeOf polygon
      if classifyAligned normal (targetDirectionQ o.direction) o.tolerance then
        let extrudevector := smulQ (2 * o.delta) normal
        let translatedpolygon := translateQPoly (smulQ (-(1 : ℚ) / 2) extrudevector) polygon
        unionG result (extrudeP extrudevector translatedpolygon)
      else unionG result (singleG polygon))
    emptyG)

/-- The wall-vertex order the spec's sentence prescribes for growth in the
positive direction: `[startpoint, endpoint, endpoint+Δ, startpoint+Δ]`.
Written from the spec's words, to be compared with the order the source
emits. -/
def specWallRule (d v1 v2 : V3) : Poly3 := [v1, v2, vadd d v2, vadd d v1]


/-! ### General counting lemmas about edge cycles -/

theorem count_map_bij {α β : Type} [BEq α] [LawfulBEq α] [BEq β] [LawfulBEq β]
    (f : α → β) (g : β → α) (hfg : ∀ x, f (g x) = x) (hgf : ∀ x, g (f x) = x)
    (l : List α) (e : β) :
    (l.map f).count e = l.count (g e) := by
  induction l with
  | nil => rfl
  | cons c t ih =>
    rw [List.map_cons, List.count_cons, List.count_cons, ih]
    by_cases h : c = g e
    · have h2 : f c = e := by rw [h, hfg]
      simp [h, h2, hfg]
    · have h2 : f c ≠ e := fun hc => h (by rw [← hc, hgf])
      simp [h, h2]

theorem count_map_swap {α β : Type} [BEq α] [LawfulBEq α] [BEq β] [LawfulBEq β]
    (l : List (α × β)) (e : β × α) :
    (l.map Prod.swap).count e = l.count e.swap := by
  exact count_map_bij Prod.swap Prod.swap (fun x => by simp) (fun x => by simp) l e

theorem getLastD_mem {α : Type} (t : List α) (a : α) : t.getLastD a ∈ a :: t := by
  induction t generalizing a with
  | nil => simp
  | cons b t2 ih =>
    rw [List.getLastD_cons]
    rcases List.mem_cons.mp (ih b) with h | h
    · rw [h]; simp
    · exact List.mem_cons_of_mem _ (List.mem_cons_of_mem _ h)

theorem headD_reverse {α : Type} (l : List α) (d : α) :
    l.reverse.headD d = l.getLastD d := by
  simp [List.headD_eq_head?, List.getLastD_eq_getLast?, List.head?_reverse]

theorem pathEdges_append_single {α : Type} (l : List α) (x : α) (h : l ≠ []) :
    pathEdges (l ++ [x]) = pathEdges l ++ [(l.getLastD x, x)] := by
  induction l with
  | nil => exact absurd rfl h
  | cons a t ih =>
    cases t with
    | nil => simp [pathEdges]
    | cons b t2 =>
      have step : (a :: b :: t2) ++ [x] = a :: ((b :: t2) ++ [x]) := by simp
      rw [step]
      show (a, b) :: pathEdges ((b :: t2) ++ [x]) = _
      rw [ih (by simp)]
      simp [pathEdges, List.getLastD_cons]

theorem pathEdges_reverse {α : Type} (l : List α) :
    pathEdges l.reverse = ((pathEdges l).map Prod.swap).reverse := by
  induction l with
  | nil => rfl
  | cons a t ih =>
    cases t with
    | nil => rfl
    | cons b t2 =>
      have hrev : (a :: b :: t2).reverse = (b :: t2).reverse ++ [a] := by simp
      rw [hrev, pathEdges_append_single _ _ (by simp)]
      rw [show (b :: t2).reverse.getLastD a = (b :: t2).headD a from by
        simp [List.getLastD_eq_getLast?, List.getLast?_reverse]]
      rw [ih]
      simp [pathEdges]

theorem pathEdges_map {α β : Type} (f : α → β) (l : List α) :
    pathEdges (l.map f) = (pathEdges l).map fun e => (f e.1, f e.2) := by
  induction l with
  | nil => rfl
  | cons a t ih =>
    cases t with
    | nil => rfl
    | cons b t2 =>
      show (f a, f b) :: pathEdges ((b :: t2).map f) = _
      rw [ih]
      rfl

theorem getLastD_map {α β : Type} (f : α → β) (t : List α) (a : α) :
    (t.map f).getLastD (f a) = f (t.getLastD a) := by
  induction t generalizing a with
  | nil => rfl
  | cons b t2 ih =>
    rw [List.map_cons, List.getLastD_cons, List.getLastD_cons, ih]

theorem cycEdges_cons_eq {α : Type} (a : α) (t : List α) :
    cycEdges (a :: t) = pathEdges (a :: t) ++ [(t.getLastD a, a)] := rfl

theorem cycEdges_map {α β : Type} (f : α → β) (l : List α) :
    cycEdges (l.map f) = (cycEdges l).map fun e => (f e.1, f e.2) := by
  cases l with
  | nil => rfl
  | cons a t =>
    rw [show (a :: t).map f = f a :: t.map f from rfl, cycEdges_cons_eq,
      cycEdges_cons_eq, ← List.map_cons f a t, pathEdges_map, getLastD_map]
    simp

theorem cycEdges_append_single {α : Type} (l : List α) (x : α) (h : l ≠ []) :
    cycEdges (l ++ [x]) = pathEdges (l ++ [x]) ++ [(x, l.headD x)] := by
  cases l with
  | cons c t3 =>
    rw [show (c :: t3) ++ [x] = c :: (t3 ++ [x]) from rfl, cycEdges_cons_eq,
      List.getLastD_concat]
    rfl
  | nil => exact absurd rfl h

theorem count_singleton_swap {α β : Type} [BEq α] [LawfulBEq α] [BEq β] [LawfulBEq β]
    (e : α × β) (a : α) (b : β) :
    List.count e [(a, b)] = List.count e.swap [(b, a)] := by
  rw [List.count_singleton, List.count_singleton]
  by_cases h : (a, b) = e
  · have h2 : (b, a) = e.swap := by rw [← h]; rfl
    simp [h, h2]
  · have h2 : (b, a) ≠ e.swap := by
      intro hc
      exact h (by simpa using congrArg Prod.swap hc)
    simp [h, h2]

theorem count_cycEdges_reverse {α : Type} [BEq α] [LawfulBEq α] (l : List α) (e : α × α) :
    (cycEdges l.reverse).count e = (cycEdges l).count e.swap := by
  cases l with
  | nil => rfl
  | cons a t =>
    cases t with
    | nil => exact count_singleton_swap e a a
    | cons b t2 =>
      have hrev : (a :: b :: t2).reverse = (b :: t2).reverse ++ [a] := by simp
      rw [hrev, cycEdges_append_single _ _ (by simp), ← hrev, cycEdges_cons_eq,
        List.count_append, List.count_append]
      have h1 : (pathEdges (a :: b :: t2).reverse).count e =
          (pathEdges (a :: b :: t2)).count e.swap := by
        rw [pathEdges_reverse, List.count_reverse, count_map_swap]
      have h2 : List.count e [(a, (b :: t2).reverse.headD a)] =
          List.count e.swap [((b :: t2).getLastD a, a)] := by
        rw [headD_reverse]
        have h3 := count_singleton_swap e.swap ((b :: t2).getLastD a) a
        simpa using h3.symm
      omega

theorem mem_of_mem_pathEdges {α : Type} (l : List α) (e : α × α)
    (h : e ∈ pathEdges l) : e.1 ∈ l ∧ e.2 ∈ l := by
  induction l with
  | nil => simp [pathEdges] at h
  | cons a t ih =>
    cases t with
    | nil => simp [pathEdges] at h
    | cons b t2 =>
      rcases List.mem_cons.mp h with h2 | h2
      · rw [h2]; exact ⟨by simp, by simp⟩
      · have h3 := ih h2
        exact ⟨List.mem_cons_of_mem _ h3.1, List.mem_cons_of_mem _ h3.2⟩

theorem mem_of_mem_cycEdges {α : Type} (l : List α) (e : α × α)
    (h : e ∈ cycEdges l) : e.1 ∈ l ∧ e.2 ∈ l := by
  cases l with
  | nil => simp [cycEdges] at h
  | cons a t =>
    rw [cycEdges_cons_eq] at h
    rcases List.mem_append.mp h with h2 | h2
    · exact mem_of_mem_pathEdges _ _ h2
    · have he : e = (t.getLastD a, a) := by simpa using h2
      rw [he]
      exact ⟨getLastD_mem t a, by simp⟩

theorem countP_pair {α : Type} [DecidableEq α] [BEq α] [LawfulBEq α]
    (l : List α) (a b : α) (hab : a ≠ b) :
    l.countP (fun x => decide (x = a) || decide (x = b)) = l.count a + l.count b := by
  induction l with
  | nil => rfl
  | cons c t ih =>
    rw [List.countP_cons, List.count_cons, List.count_cons, ih]
    by_cases hca : c = a
    · have hcb : c ≠ b := by rw [hca]; exact hab
      simp [hca, hcb, hab] <;> omega
    · by_cases hcb : c = b
      · simp [hca, hcb, hab, Ne.symm hab] <;> omega
      · simp [hca, hcb, hab] <;> omega

/-! ### Edge-map fold lemmas -/

theorem keyCount_nil (k : V3 × V3) : keyCount [] k = 0 := rfl

theorem keyCount_cons (en : EdgeEntry) (rest : List EdgeEntry) (k : V3 × V3) :
    keyCount (en :: rest) k = (if en.key = k then en.count else 0) + keyCount rest k := by
  simp [keyCount]

theorem entriesKeys_nil : entriesKeys [] = [] := rfl

theorem entriesKeys_cons (en : EdgeEntry) (rest : List EdgeEntry) :
    entriesKeys (en :: rest) = en.key :: entriesKeys rest := rfl

theorem insertEdge_nil (keyf : V3 × V3 → V3 × V3) (e : V3 × V3) :
    insertEdge keyf [] e = [⟨keyf e, e.1, e.2, 1⟩] := rfl

theorem insertEdge_cons (keyf : V3 × V3 → V3 × V3) (en : EdgeEntry)
    (rest : List EdgeEntry) (e : V3 × V3) :
    insertEdge keyf (en :: rest) e =
      if en.key = keyf e then ⟨en.key, en.v1, en.v2, en.count + 1⟩ :: rest
      else en :: insertEdge keyf rest e := rfl

theorem insertEdge_keyCount (keyf : V3 × V3 → V3 × V3) (l : List EdgeEntry)
    (e : V3 × V3) (k : V3 × V3) :
    keyCount (insertEdge keyf l e) k = keyCount l k + (if keyf e = k then 1 else 0) := by
  induction l with
  | nil =>
    rw [insertEdge_nil, keyCount_cons, keyCount_nil]
    simp
  | cons en rest ih =>
    rw [insertEdge_cons]
    by_cases h : en.key = keyf e
    · rw [if_pos h, keyCount_cons, keyCount_cons]
      by_cases hk : en.key = k
      · have hek : keyf e = k := by rw [← h, hk]
        simp only [hk, if_pos rfl, hek]
        simp
        omega
      · have hek : keyf e ≠ k := by rw [← h]; exact hk
        simp [hk, hek]
    · rw [if_neg h, keyCount_cons, keyCount_cons, ih]
      omega

theorem foldl_insertEdge_keyCount (keyf : V3 × V3 → V3 × V3) (es : List (V3 × V3))
    (acc : List EdgeEntry) (k : V3 × V3) :
    keyCount (es.foldl (insertEdge keyf) acc) k =
      keyCount acc k + es.countP fun e => decide (keyf e = k) := by
  induction es generalizing acc with
  | nil => simp
  | cons e es2 ih =>
    rw [List.foldl_cons, ih, insertEdge_keyCount, List.countP_cons]
    by_cases h : keyf e = k
    · simp [h] <;> omega
    · simp [h]

theorem insertEdge_keys_mem (keyf : V3 × V3 → V3 × V3) (l : List EdgeEntry)
    (e : V3 × V3) (h : keyf e ∈ entriesKeys l) :
    entriesKeys (insertEdge keyf l e) = entriesKeys l := by
  induction l with
  | nil => simp [entriesKeys_nil] at h
  | cons en rest ih =>
    rw [insertEdge_cons]
    by_cases h2 : en.key = keyf e
    · rw [if_pos h2, entriesKeys_cons, entriesKeys_cons]
    · rw [if_neg h2, entriesKeys_cons, entriesKeys_cons]
      have h3 : keyf e ∈ entriesKeys rest := by
        rw [entriesKeys_cons] at h
        rcases List.mem_cons.mp h with h4 | h4
        · exact absurd h4.symm h2
        · exact h4
      rw [ih h3]

theorem insertEdge_keys_not_mem (keyf : V3 × V3 → V3 × V3) (l : List EdgeEntry)
    (e : V3 × V3) (h : keyf e ∉ entriesKeys l) :
    entriesKeys (insertEdge keyf l e) = entriesKeys l ++ [keyf e] := by
  induction l with
  | nil => simp [insertEdge_nil, entriesKeys]
  | cons en rest ih =>
    rw [insertEdge_cons]
    have h2 : en.key ≠ keyf e := by
      intro hc
      exact h (by rw [entriesKeys_cons, ← hc]; simp)
    rw [if_neg h2, entriesKeys_cons, entriesKeys_cons]
    have h3 : keyf e ∉ entriesKeys rest := by
      intro hc
      exact h (by rw [entriesKeys_cons]; exact List.mem_cons_of_mem _ hc)
    rw [ih h3]
    rfl

theorem insertEdge_keys_nodup (keyf : V3 × V3 → V3 × V3) (l : List EdgeEntry)
    (e : V3 × V3) (h : (entriesKeys l).Nodup) :
    (entriesKeys (insertEdge keyf l e)).Nodup := by
  by_cases hm : keyf e ∈ entriesKeys l
  · rw [insertEdge_keys_mem keyf l e hm]; exact h
  · rw [insertEdge_keys_not_mem keyf l e hm]
    rw [List.nodup_append]
    refine ⟨h, List.nodup_singleton _, ?_⟩
    intro x hx
    simp only [List.mem_singleton]
    intro hc
    rw [hc] at hx
    exact hm hx

theorem buildEdgeMap_keys_nodup (keyf : V3 × V3 → V3 × V3) (m : Mesh) :
    (entriesKeys (buildEdgeMap keyf m)).Nodup := by
  suffices hgen : ∀ (es : List (V3 × V3)) (acc : List EdgeEntry), (entriesKeys acc).Nodup →
      (entriesKeys (es.foldl (insertEdge keyf) acc)).Nodup by
    exact hgen _ [] (by rw [entriesKeys_nil]; exact List.nodup_nil)
  intro es
  induction es with
  | nil => intro acc h; simpa using h
  | cons e es2 ih =>
    intro acc h
    rw [List.foldl_cons]
    exact ih _ (insertEdge_keys_nodup keyf acc e h)

theorem keyCount_eq_zero_of_not_mem (l : List EdgeEntry) (k : V3 × V3)
    (h : k ∉ entriesKeys l) : keyCount l k = 0 := by
  induction l with
  | nil => rfl
  | cons en rest ih =>
    rw [keyCount_cons]
    have h1 : en.key ≠ k := by
      intro hc
      exact h (by rw [entriesKeys_cons, hc]; simp)
    have h2 : k ∉ entriesKeys rest := by
      intro hc
      exact h (by rw [entriesKeys_cons]; exact List.mem_cons_of_mem _ hc)
    simp [h1, ih h2]

theorem keyCount_of_mem_nodup (l : List EdgeEntry) (en : EdgeEntry) (hmem : en ∈ l)
    (hnd : (entriesKeys l).Nodup) : keyCount l en.key = en.count := by
  induction l with
  | nil => simp at hmem
  | cons c rest ih =>
    rw [entriesKeys_cons] at hnd
    have hnd2 := List.nodup_cons.mp hnd
    rw [keyCount_cons]
    rcases List.mem_cons.mp hmem with h | h
    · rw [h]
      have hz : keyCount rest c.key = 0 :=
        keyCount_eq_zero_of_not_mem rest c.key hnd2.1
      simp [hz]
    · have hkne : c.key ≠ en.key := by
        intro hc2
        have hin : en.key ∈ entriesKeys rest := by
          rw [entriesKeys]
          exact List.mem_map.mpr ⟨en, h, rfl⟩
        rw [hc2] at hnd2
        exact hnd2.1 hin
      simp [hkne, ih h hnd2.2]

theorem insertEdge_mem_src (keyf : V3 × V3 → V3 × V3) (l : List EdgeEntry)
    (e : V3 × V3) (en2 : EdgeEntry) (h : en2 ∈ insertEdge keyf l e) :
    (∃ en ∈ l, en2.key = en.key ∧ en2.v1 = en.v1 ∧ en2.v2 = en.v2) ∨
    (en2.key = keyf e ∧ en2.v1 = e.1 ∧ en2.v2 = e.2) := by
  induction l with
  | nil =>
    right
    have h2 : en2 = ⟨keyf e, e.1, e.2, 1⟩ := by simpa [insertEdge_nil] using h
    rw [h2]
    exact ⟨rfl, rfl, rfl⟩
  | cons en rest ih =>
    rw [insertEdge_cons] at h
    by_cases h2 : en.key = keyf e
    · rw [if_pos h2] at h
      rcases List.mem_cons.mp h with h3 | h3
      · left
        exact ⟨en, List.mem_cons_self _ _, by rw [h3], by rw [h3], by rw [h3]⟩
      · left
        exact ⟨en2, List.mem_cons_of_mem _ h3, rfl, rfl, rfl⟩
    · rw [if_neg h2] at h
      rcases List.mem_cons.mp h with h3 | h3
      · left
        exact ⟨en, List.mem_cons_self _ _, by rw [h3], by rw [h3], by rw [h3]⟩
      · rcases ih h3 with h4 | h4
        · rcases h4 with ⟨en0, hm, he⟩
          exact Or.inl ⟨en0, List.mem_cons_of_mem _ hm, he⟩
        · exact Or.inr h4

theorem foldl_insertEdge_wf (keyf : V3 × V3 → V3 × V3) (es : List (V3 × V3))
    (acc : List EdgeEntry) (en : EdgeEntry) (h : en ∈ es.foldl (insertEdge keyf) acc) :
    (∃ en0 ∈ acc, en.key = en0.key ∧ en.v1 = en0.v1 ∧ en.v2 = en0.v2) ∨
    (en.key = keyf (en.v1, en.v2) ∧ (en.v1, en.v2) ∈ es) := by
  induction es generalizing acc with
  | nil =>
    left
    exact ⟨en, by simpa using h, rfl, rfl, rfl⟩
  | cons e es2 ih =>
    rw [List.foldl_cons] at h
    rcases ih _ h with h2 | h2
    · rcases h2 with ⟨en0, hm, hk, hv1, hv2⟩
      rcases insertEdge_mem_src keyf acc e en0 hm with h3 | h3
      · rcases h3 with ⟨en1, hm1, hk1, hv11, hv21⟩
        exact Or.inl ⟨en1, hm1, hk.trans hk1, hv1.trans hv11, hv2.trans hv21⟩
      · rcases h3 with ⟨hk1, hv11, hv21⟩
        right
        constructor
        · rw [hk, hk1, hv1.trans hv11, hv2.trans hv21]
        · rw [hv1.trans hv11, hv2.trans hv21]
          exact List.mem_cons_self _ _
    · exact Or.inr ⟨h2.1, List.mem_cons_of_mem _ h2.2⟩

theorem buildEdgeMap_wf (keyf : V3 × V3 → V3 × V3) (m : Mesh) (en : EdgeEntry)
    (h : en ∈ buildEdgeMap keyf m) :
    en.key = keyf (en.v1, en.v2) ∧ (en.v1, en.v2) ∈ meshDirectedEdges m := by
  rcases foldl_insertEdge_wf keyf _ [] en h with h2 | h2
  · rcases h2 with ⟨en0, hm, _⟩
    simp at hm
  · exact h2

theorem buildEdgeMap_count (keyf : V3 × V3 → V3 × V3) (m : Mesh) (en : EdgeEntry)
    (h : en ∈ buildEdgeMap keyf m) :
    en.count = (meshDirectedEdges m).countP fun e => decide (keyf e = en.key) := by
  have h1 := keyCount_of_mem_nodup _ en h (buildEdgeMap_keys_nodup keyf m)
  have h2 := foldl_insertEdge_keyCount keyf (meshDirectedEdges m) [] en.key
  rw [show buildEdgeMap keyf m = (meshDirectedEdges m).foldl (insertEdge keyf) []
    from rfl] at h1
  rw [h2, keyCount_nil] at h1
  omega

/-! ### Canonical key lemmas -/

theorem lexLe_total (a b : V3) : lexLe a b ∨ lexLe b a := by
  unfold lexLe
  rcases lt_trichotomy a.1 b.1 with h | h | h
  · exact Or.inl (Or.inl h)
  · rcases lt_trichotomy a.2.1 b.2.1 with h2 | h2 | h2
    · exact Or.inl (Or.inr ⟨h, Or.inl h2⟩)
    · rcases le_total a.2.2 b.2.2 with h3 | h3
      · exact Or.inl (Or.inr ⟨h, Or.inr ⟨h2, h3⟩⟩)
      · exact Or.inr (Or.inr ⟨h.symm, Or.inr ⟨h2.symm, h3⟩⟩)
    · exact Or.inr (Or.inr ⟨h.symm, Or.inl h2⟩)
  · exact Or.inr (Or.inl h)

theorem lexLe_antisymm (a b : V3) (h1 : lexLe a b) (h2 : lexLe b a) : a = b := by
  unfold lexLe at h1 h2
  rcases h1 with h1 | ⟨e1, h1⟩
  · rcases h2 with h2 | ⟨e2, _⟩
    · exact absurd h1 (not_lt.mpr (le_of_lt h2))
    · exact absurd h1 (not_lt.mpr (le_of_eq e2))
  · rcases h2 with h2 | ⟨e2, h2⟩
    · exact absurd h2 (not_lt.mpr (le_of_eq e1))
    · rcases h1 with h1 | ⟨f1, h1⟩
      · rcases h2 with h2 | ⟨f2, _⟩
        · exact absurd h1 (not_lt.mpr (le_of_lt h2))
        · exact absurd h1 (not_lt.mpr (le_of_eq f2))
      · rcases h2 with h2 | ⟨f2, h2⟩
        · exact absurd h2 (not_lt.mpr (le_of_eq f1))
        · exact Prod.ext e1 (Prod.ext f1 (le_antisymm h1 h2))

theorem canonPair_comm (a b : V3) : canonPair a b = canonPair b a := by
  unfold canonPair
  by_cases h1 : lexLe a b
  · by_cases h2 : lexLe b a
    · rw [if_pos h1, if_pos h2, lexLe_antisymm a b h1 h2]
    · rw [if_pos h1, if_neg h2]
  · by_cases h2 : lexLe b a
    · rw [if_neg h1, if_pos h2]
    · rcases lexLe_total a b with h3 | h3
      · exact absurd h3 h1
      · exact absurd h3 h2

theorem canonPair_eq_cases (a b c d : V3) (h : canonPair a b = canonPair c d) :
    (a = c ∧ b = d) ∨ (a = d ∧ b = c) := by
  unfold canonPair at h
  by_cases h1 : lexLe a b
  · rw [if_pos h1] at h
    by_cases h2 : lexLe c d
    · rw [if_pos h2] at h
      exact Or.inl ⟨congrArg Prod.fst h, congrArg Prod.snd h⟩
    · rw [if_neg h2] at h
      exact Or.inr ⟨congrArg Prod.fst h, congrArg Prod.snd h⟩
  · rw [if_neg h1] at h
    by_cases h2 : lexLe c d
    · rw [if_pos h2] at h
      exact Or.inr ⟨congrArg Prod.snd h, congrArg Prod.fst h⟩
    · rw [if_neg h2] at h
      exact Or.inl ⟨congrArg Prod.snd h, congrArg Prod.fst h⟩

theorem createEdgeKey_swap (e : V3 × V3) :
    createEdgeKey (Prod.swap e) = createEdgeKey e := by
  unfold createEdgeKey
  exact canonPair_comm (roundV e.2) (roundV e.1)

theorem mapPlaneToEdgeKey_swap (e : V3 × V3) :
    mapPlaneToEdgeKey (Prod.swap e) = mapPlaneToEdgeKey e := by
  unfold mapPlaneToEdgeKey
  exact canonPair_comm e.2 e.1

/-! ### Vector and translated-mesh lemmas -/

theorem vadd_vsub_cancel (d x : V3) : vadd d (vsub x d) = x := by
  obtain ⟨x1, x2, x3⟩ := x
  obtain ⟨d1, d2, d3⟩ := d
  simp only [vadd, vsub, Prod.mk.injEq]
  refine ⟨by omega, by omega, by omega⟩

theorem vsub_vadd_cancel (d x : V3) : vsub (vadd d x) d = x := by
  obtain ⟨x1, x2, x3⟩ := x
  obtain ⟨d1, d2, d3⟩ := d
  simp only [vadd, vsub, Prod.mk.injEq]
  refine ⟨by omega, by omega, by omega⟩

theorem addE_subE (d : V3) (e : V3 × V3) : addE d (subE d e) = e := by
  unfold addE subE
  exact Prod.ext (vadd_vsub_cancel d e.1) (vadd_vsub_cancel d e.2)

theorem subE_addE (d : V3) (e : V3 × V3) : subE d (addE d e) = e := by
  unfold addE subE
  exact Prod.ext (vsub_vadd_cancel d e.1) (vsub_vadd_cancel d e.2)

theorem swap_subE (d : V3) (e : V3 × V3) : (subE d e).swap = subE d e.swap := rfl

theorem meshDirectedEdges_append (m1 m2 : Mesh) :
    meshDirectedEdges (m1 ++ m2) = meshDirectedEdges m1 ++ meshDirectedEdges m2 := by
  simp [meshDirectedEdges]

theorem count_cycEdges_translateRev (d : V3) (p : Poly3) (e : V3 × V3) :
    (cycEdges (translateRevPoly d p)).count e = (cycEdges p).count (subE d e.swap) := by
  unfold translateRevPoly
  rw [count_cycEdges_reverse, cycEdges_map]
  rw [show (fun x : V3 × V3 => (vadd d x.1, vadd d x.2)) = addE d from rfl]
  exact count_map_bij (addE d) (subE d) (addE_subE d) (subE_addE d) (cycEdges p) e.swap

theorem count_mde_translateRev (m : Mesh) (d : V3) (e : V3 × V3) :
    (meshDirectedEdges (m.map (translateRevPoly d))).count e =
    (meshDirectedEdges m).count (subE d e.swap) := by
  unfold meshDirectedEdges
  rw [List.count_flatten, List.count_flatten, List.map_map, List.map_map, List.map_map]
  congr 1
  apply List.map_congr_left
  intro p _
  exact count_cycEdges_translateRev d p e

theorem mem_meshVertices_of_mem_edge (m : Mesh) (e : V3 × V3)
    (h : e ∈ meshDirectedEdges m) : e.1 ∈ meshVertices m ∧ e.2 ∈ meshVertices m := by
  unfold meshDirectedEdges at h
  rcases List.mem_flatten.mp h with ⟨l, hl, hel⟩
  rcases List.mem_map.mp hl with ⟨p, hp, hpl⟩
  rw [← hpl] at hel
  have h2 := mem_of_mem_cycEdges p e hel
  unfold meshVertices
  exact ⟨List.mem_flatten.mpr ⟨p, hp, h2.1⟩, List.mem_flatten.mpr ⟨p, hp, h2.2⟩⟩

/-! ### Closed meshes saturate the edge map -/

theorem closed_entry_count_ge_two (m : Mesh) (hm : isClosed2Manifold m)
    (en : EdgeEntry) (h : en ∈ buildEdgeMap createEdgeKey m) : 2 ≤ en.count := by
  have hwf := buildEdgeMap_wf createEdgeKey m en h
  have he : (en.v1, en.v2) ∈ meshDirectedEdges m := hwf.2
  have hc := hm (en.v1, en.v2) he
  have hcount := buildEdgeMap_count createEdgeKey m en h
  have hne : (en.v1, en.v2) ≠ Prod.swap (en.v1, en.v2) := by
    intro hc2
    exact hc.2.2 (congrArg Prod.fst hc2)
  have hmono : (meshDirectedEdges m).countP
      (fun x => decide (x = (en.v1, en.v2)) || decide (x = Prod.swap (en.v1, en.v2))) ≤
      (meshDirectedEdges m).countP fun e => decide (createEdgeKey e = en.key) := by
    apply List.countP_mono_left
    intro x _ hpx
    simp only [Bool.or_eq_true, decide_eq_true_eq] at hpx
    rcases hpx with h3 | h3
    · rw [h3]
      simp only [decide_eq_true_eq]
      exact hwf.1.symm
    · rw [h3]
      simp only [decide_eq_true_eq]
      rw [createEdgeKey_swap]
      exact hwf.1.symm
  rw [countP_pair _ _ _ hne] at hmono
  rw [hc.1, hc.2.1] at hmono
  omega

theorem wallsA_eq_nil_of_closed (d : V3) (m : Mesh) (hm : isClosed2Manifold m) :
    wallsA d m = [] := by
  unfold wallsA
  rw [List.filterMap_eq_nil_iff]
  intro en hen
  have h2 := closed_entry_count_ge_two m hm en hen
  rw [if_neg (by omega)]

/-- C1 (amended): the claim fails as stated (see `c1_watertight_counterexample`:
with `delta = 0` the translated copy duplicates every edge of the original, so
each edge of the output is shared by four polygons).  Amended by the
counterexample: for every closed 2-manifold input mesh and options whose
direction vector places no translated edge onto an original edge, the
boundary-wall variant's output is a closed 2-manifold — every edge of the
output is shared by exactly two polygons with opposite traversal direction. -/
theorem c1_watertight_amended (o : OptsA) (m : Mesh)
    (hm : isClosed2Manifold m)
    (hd : translatedEdgeDisjoint m (directionVectorA o)) :
    isClosed2Manifold (expandDirectionalWalls o m) := by
  set d := directionVectorA o with hd_def
  have hwalls : wallsA d m = [] := wallsA_eq_nil_of_closed d m hm
  have hout : expandDirectionalWalls o m = m ++ m.map (translateRevPoly d) := by
    unfold expandDirectionalWalls
    rw [← hd_def, hwalls, List.append_nil]
  rw [hout]
  intro e he
  have ftc : ∀ x : V3 × V3,
      (meshDirectedEdges (m.map (translateRevPoly d))).count x =
      (meshDirectedEdges m).count (subE d x.swap) :=
    fun x => count_mde_translateRev m d x
  rw [meshDirectedEdges_append] at he
  rw [meshDirectedEdges_append, List.count_append, List.count_append]
  rcases List.mem_append.mp he with he1 | he2
  · have hc := hm e he1
    have hT1 : (meshDirectedEdges (m.map (translateRevPoly d))).count e = 0 := by
      rw [ftc e]
      rw [List.count_eq_zero]
      intro hg
      have h2 := (hd e he1 (subE d e.swap) hg).2
      exact h2 (addE_subE d e.swap)
    have hT2 : (meshDirectedEdges (m.map (translateRevPoly d))).count e.swap = 0 := by
      rw [ftc e.swap]
      rw [show (Prod.swap e.swap) = e from Prod.swap_swap e]
      rw [List.count_eq_zero]
      intro hg
      have h1 := (hd e he1 (subE d e) hg).1
      exact h1 (addE_subE d e)
    exact ⟨by rw [hc.1, hT1], by rw [hc.2.1, hT2], hc.2.2⟩
  · have hTpos : 0 < (meshDirectedEdges (m.map (translateRevPoly d))).count e :=
      List.count_pos_iff.mpr he2
    rw [ftc e] at hTpos
    have hg0mem : subE d e.swap ∈ meshDirectedEdges m := List.count_pos_iff.mp hTpos
    have hcg := hm (subE d e.swap) hg0mem
    have hswapeq : addE d (subE d e.swap) = e.swap := addE_subE d e.swap
    have hD1 : (meshDirectedEdges m).count e = 0 := by
      rw [List.count_eq_zero]
      intro heD
      exact (hd e heD (subE d e.swap) hg0mem).2 hswapeq
    have hD2 : (meshDirectedEdges m).count e.swap = 0 := by
      rw [List.count_eq_zero]
      intro heD
      exact (hd e.swap heD (subE d e.swap) hg0mem).1 hswapeq
    have hg0swap : subE d e = Prod.swap (subE d e.swap) := by
      rw [swap_subE, Prod.swap_swap]
    have hT1 : (meshDirectedEdges (m.map (translateRevPoly d))).count e = 1 := by
      rw [ftc e]
      exact hcg.1
    have hT2 : (meshDirectedEdges (m.map (translateRevPoly d))).count e.swap = 1 := by
      rw [ftc e.swap]
      rw [show (Prod.swap e.swap) = e from Prod.swap_swap e]
      rw [hg0swap]
      exact hcg.2.1
    have hne : e.1 ≠ e.2 := by
      intro hcontra
      have h1 : e.2 = vadd d (subE d e.swap).1 := (congrArg Prod.fst hswapeq).symm
      have h2 : e.1 = vadd d (subE d e.swap).2 := (congrArg Prod.snd hswapeq).symm
      have h3 : vadd d (subE d e.swap).2 = vadd d (subE d e.swap).1 := by
        rw [← h1, ← h2, hcontra]
      have h4 := congrArg (fun x => vsub x d) h3
      simp only [vsub_vadd_cancel] at h4
      exact hcg.2.2 h4.symm
    exact ⟨by rw [hD1, hT1], by rw [hD2, hT2], hne⟩

/-- C1 counterexample: the unit tetrahedron is a valid closed 2-manifold and
`expandDirectional` with `delta = 0` (an option set on which the call returns
successfully) produces a mesh that is not a closed 2-manifold. -/
theorem c1_watertight_counterexample :
    isClosed2Manifold tetMesh ∧
    ¬ isClosed2Manifold (expandDirectionalWalls ⟨0, "y"⟩ tetMesh) :=
  ⟨by decide, by decide⟩

/-- C1 witness: the amended theorem applied to the unit tetrahedron with
`delta = 1` along y. -/
theorem c1_watertight_amended_witness :
    (isClosed2Manifold tetMesh ∧
      translatedEdgeDisjoint tetMesh (directionVectorA ⟨U, "y"⟩)) ∧
    isClosed2Manifold (expandDirectionalWalls ⟨U, "y"⟩ tetMesh) :=
  ⟨⟨by decide, by decide⟩,
    c1_watertight_amended ⟨U, "y"⟩ tetMesh (by decide) (by decide)⟩

/-- C5: evaluation of the code at the failing input.  On the unit tetrahedron
with `delta = 0` the boundary-wall variant returns the original polygons plus
a coincident reversed copy: the enclosed signed volume of the output is `0`
(not the tetrahedron's volume `U³/6`) and the face count doubles, so the
output is not geometrically equivalent to the input. -/
theorem c5_zero_growth_eval :
    signedVol6 (expandDirectionalWalls ⟨0, "y"⟩ tetMesh) = 0 ∧
    signedVol6 tetMesh = U ^ 3 ∧
    (expandDirectionalWalls ⟨0, "y"⟩ tetMesh).length = 2 * tetMesh.length :=
  ⟨by decide, by decide, by decide⟩

/-- C9: any direction string other than the three recognized axis tags makes
the boundary-wall variant behave exactly as the documented default axis "y":
the whole operation returns the same mesh. -/
theorem c9_direction_default (o : OptsA) (m : Mesh)
    (hx : o.direction ≠ "x") (hz : o.direction ≠ "z") :
    expandDirectionalWalls o m = expandDirectionalWalls ⟨o.delta, "y"⟩ m := by
  have hdv : directionVectorA o = directionVectorA ⟨o.delta, "y"⟩ := by
    unfold directionVectorA
    by_cases hy : o.direction = "y"
    · simp [hy]
    · simp [hx, hy, hz]
  unfold expandDirectionalWalls
  rw [hdv]

/-- C9 witness: the unrecognized direction "q" behaves as "y" on the square. -/
theorem c9_direction_default_witness :
    (("q" : String) ≠ "x" ∧ ("q" : String) ≠ "z") ∧
    expandDirectionalWalls ⟨U, "q"⟩ sqMesh = expandDirectionalWalls ⟨U, "y"⟩ sqMesh :=
  ⟨⟨by decide, by decide⟩, c9_direction_default ⟨U, "q"⟩ sqMesh (by decide) (by decide)⟩

/-- C3 counterexample: on the open unit square with growth `+U` along y, the
boundary edge from `(0,0,0)` to `(0,0,1)` receives the wall
`[startpoint, startpoint+Δ, endpoint+Δ, endpoint]`, which differs from the
claimed canonical order `[startpoint, endpoint, endpoint+Δ, startpoint+Δ]`,
and no wall with the claimed order is emitted at all. -/
theorem c3_wall_order_counterexample :
    [((0 : ℤ), (0 : ℤ), (0 : ℤ)), (0, U, 0), (0, U, U), (0, 0, U)] ∈
      wallsA (0, U, 0) sqMesh ∧
    specWallRule (0, U, 0) (0, 0, 0) (0, 0, U) ∉ wallsA (0, U, 0) sqMesh ∧
    [((0 : ℤ), (0 : ℤ), (0 : ℤ)), (0, U, 0), (0, U, U), (0, 0, U)] ≠
      specWallRule (0, U, 0) (0, 0, 0) (0, 0, U) :=
  ⟨by decide, by decide, by decide⟩

/-- C3 (amended): every wall the boundary-wall variant emits is the quad
`[startpoint, startpoint+Δ, endpoint+Δ, startpoint... endpoint]` over some
directed edge `(startpoint, endpoint)` of the input mesh — i.e. the source
uses the order `[v1, v1+Δ, v2+Δ, v2]`, regardless of the sign of growth, not
the spec's `[v1, v2, v2+Δ, v1+Δ]`. -/
theorem c3_wall_order_amended (d : V3) (m : Mesh) (w : Poly3)
    (hw : w ∈ wallsA d m) :
    ∃ v1 v2 : V3, (v1, v2) ∈ meshDirectedEdges m ∧
      w = [v1, vadd d v1, vadd d v2, v2] := by
  unfold wallsA at hw
  rcases List.mem_filterMap.mp hw with ⟨en, hen, hsome⟩
  by_cases h1 : en.count = 1
  · rw [if_pos h1] at hsome
    have hwf := buildEdgeMap_wf createEdgeKey m en hen
    exact ⟨en.v1, en.v2, hwf.2, (Option.some_inj.mp hsome).symm⟩
  · rw [if_neg h1] at hsome
    exact absurd hsome (by simp)

/-- C3 witness: the amended theorem applied to the first wall of the square. -/
theorem c3_wall_order_amended_witness :
    ([((0 : ℤ), (0 : ℤ), (0 : ℤ)), (0, U, 0), (0, U, U), (0, 0, U)] ∈
      wallsA (0, U, 0) sqMesh) ∧
    (∃ v1 v2 : V3, (v1, v2) ∈ meshDirectedEdges sqMesh ∧
      [((0 : ℤ), (0 : ℤ), (0 : ℤ)), (0, U, 0), (0, U, U), (0, 0, U)] =
        [v1, vadd (0, U, 0) v1, vadd (0, U, 0) v2, v2]) :=
  ⟨by decide, c3_wall_order_amended (0, U, 0) sqMesh _ (by decide)⟩

/-- C8 counterexample: the `mapPlaneToEdge` key of part_001 compares raw
coordinate representations: the vertices `(1e-11, 0, 0)` and `(0, 0, 0)`
are identified by rounding at the pass's `1e-10` precision, yet the two
geometrically identical edges get different keys, so the claim that every
key is formed from coordinates rounded at a fixed precision (raw
representations never compared) is false. -/
theorem c8_edge_key_counterexample :
    roundV (10, 0, 0) = roundV (0, 0, 0) ∧
    mapPlaneToEdgeKey ((10, 0, 0), (U, 0, 0)) ≠
      mapPlaneToEdgeKey ((0, 0, 0), (U, 0, 0)) :=
  ⟨by decide, by decide⟩

/-- C8 (amended): both edge keys are symmetric under swapping the endpoints;
`createEdgeKey` (expandDirectional.js) moreover factors through rounding at
the fixed `1e-10` precision, so representations that agree after rounding
collapse to the same key — but `mapPlaneToEdge` (part_001) uses the raw
representations, with no rounding. -/
theorem c8_edge_key_amended (v1 v2 : V3) :
    createEdgeKey (v1, v2) = createEdgeKey (v2, v1) ∧
    mapPlaneToEdgeKey (v1, v2) = mapPlaneToEdgeKey (v2, v1) ∧
    (∀ u1 u2 : V3, roundV u1 = roundV v1 → roundV u2 = roundV v2 →
      createEdgeKey (u1, u2) = createEdgeKey (v1, v2)) := by
  refine ⟨createEdgeKey_swap (v2, v1), mapPlaneToEdgeKey_swap (v2, v1), ?_⟩
  intro u1 u2 h1 h2
  show canonPair (roundV u1) (roundV u2) = canonPair (roundV v1) (roundV v2)
  rw [h1, h2]

/-- C8 witness: the amended theorem applied at `(0,0,0)-(1,0,0)` with the
nearby representation `(1e-11, 0, 0)` of the first endpoint. -/
theorem c8_edge_key_amended_witness :
    (roundV (10, 0, 0) = roundV (0, 0, 0)) ∧
    createEdgeKey ((10, 0, 0), (U, 0, 0)) = createEdgeKey ((0, 0, 0), (U, 0, 0)) :=
  ⟨by decide,
    (c8_edge_key_amended (0, 0, 0) (U, 0, 0)).2.2 (10, 0, 0) (U, 0, 0) (by decide) rfl⟩

/-- C6 counterexample: a watertight mesh (two disjoint closed tetrahedra, one
offset by `1e-11`, below the `1e-10` rounding tolerance of `createEdgeKey`)
on which some edge-map entry has occurrence count 4, not 2. -/
theorem c6_edge_map_counterexample :
    isClosed2Manifold twoTets ∧
    ¬ (∀ en ∈ buildEdgeMap createEdgeKey twoTets, en.count = 2) :=
  ⟨by decide, by decide⟩

/-- C6 (amended): for a watertight input mesh on whose vertices the `1e-10`
rounding is injective (no two distinct vertices share a rounded key — the
counterexample shows the unqualified claim fails under sub-tolerance vertex
collapse), every edge-map entry has occurrence count exactly 2; and,
unconditionally, every entry with count 1 receives a connector wall. -/
theorem c6_edge_map_amended (m : Mesh) :
    (isClosed2Manifold m → roundInjectiveOn m →
      ∀ en ∈ buildEdgeMap createEdgeKey m, en.count = 2) ∧
    (∀ (d : V3), ∀ en ∈ buildEdgeMap createEdgeKey m, en.count = 1 →
      [en.v1, vadd d en.v1, vadd d en.v2, en.v2] ∈ wallsA d m) := by
  constructor
  · intro hm hinj en hen
    have hwf := buildEdgeMap_wf createEdgeKey m en hen
    have he : (en.v1, en.v2) ∈ meshDirectedEdges m := hwf.2
    have hc := hm _ he
    have hcount := buildEdgeMap_count createEdgeKey m en hen
    have hne : (en.v1, en.v2) ≠ Prod.swap (en.v1, en.v2) := fun hc2 =>
      hc.2.2 (congrArg Prod.fst hc2)
    have hcongr : ((meshDirectedEdges m).countP
        fun e => decide (createEdgeKey e = en.key)) =
        (meshDirectedEdges m).countP
          fun x => decide (x = (en.v1, en.v2)) ||
            decide (x = Prod.swap (en.v1, en.v2)) := by
      apply List.countP_congr
      intro x hx
      simp only [decide_eq_true_eq, Bool.or_eq_true]
      constructor
      · intro hk
        rw [hwf.1] at hk
        unfold createEdgeKey at hk
        have hcc := canonPair_eq_cases _ _ _ _ hk
        have hx1 := (mem_meshVertices_of_mem_edge m x hx).1
        have hx2 := (mem_meshVertices_of_mem_edge m x hx).2
        have hv1 := (mem_meshVertices_of_mem_edge m _ he).1
        have hv2 := (mem_meshVertices_of_mem_edge m _ he).2
        rcases hcc with ⟨ha, hb⟩ | ⟨ha, hb⟩
        · exact Or.inl (Prod.ext (hinj _ hx1 _ hv1 ha) (hinj _ hx2 _ hv2 hb))
        · exact Or.inr (Prod.ext (hinj _ hx1 _ hv2 ha) (hinj _ hx2 _ hv1 hb))
      · intro hk
        rcases hk with hk | hk
        · rw [hk]; exact hwf.1.symm
        · rw [hk, createEdgeKey_swap]; exact hwf.1.symm
    rw [hcongr, countP_pair _ _ _ hne, hc.1, hc.2.1] at hcount
    omega
  · intro d en hen h1
    unfold wallsA
    exact List.mem_filterMap.mpr ⟨en, hen, by rw [if_pos h1]⟩

/-- C6 witness: the amended theorem applied to the tetrahedron (closed, with
injective rounding: every entry count is 2) and, for the connector clause, to
a boundary edge of the open square. -/
theorem c6_edge_map_amended_witness :
    (isClosed2Manifold tetMesh ∧ roundInjectiveOn tetMesh ∧
      ∀ en ∈ buildEdgeMap createEdgeKey tetMesh, en.count = 2) ∧
    [((0 : ℤ), (0 : ℤ), (0 : ℤ)), (0, U, 0), (0, U, U), (0, 0, U)] ∈
      wallsA (0, U, 0) sqMesh :=
  ⟨⟨by decide, by decide, (c6_edge_map_amended tetMesh).1 (by decide) (by decide)⟩,
    (c6_edge_map_amended sqMesh).2 (0, U, 0)
      ⟨((0, 0, 0), (0, 0, U)), (0, 0, 0), (0, 0, U), 1⟩ (by decide) rfl⟩

theorem isWithinXZBounds2_shift_y (p2 : V3) (y : ℤ) (bd : BoundsXZ) :
    isWithinXZBounds2 (vadd p2 (0, y, 0)) bd = isWithinXZBounds2 p2 bd := by
  obtain ⟨p1, py, pz⟩ := p2
  simp [isWithinXZBounds2, vadd]

/-- C7 counterexample: on the square with the pillar variant's default
options, some emitted connector has a vertex outside the input's XZ bounding
rectangle (the vertex pillar at a footprint corner extends `EPS` beyond it),
so the claim that every connector vertex lies within the footprint is false. -/
theorem c7_footprint_counterexample :
    (connectorBoxes ⟨U, true, false⟩ sqMesh).all
      (fun b => boxWithinXZ b (getXZBounds sqMesh)) = false := by decide

/-- C7 (amended): every connector (edge or vertex pillar) the pillar variant
emits has its representative location — the edge midpoint, resp. the vertex,
which is the pillar's center in x and z — within the input mesh's XZ bounding
rectangle; this is the containment the emission guard actually enforces (the
pillar's own vertices may exceed the rectangle by half its cross-section, as
the counterexample shows). -/
theorem c7_footprint_amended (o : OptsU) (m : Mesh) (b : Box)
    (hb : b ∈ connectorBoxes o m) :
    isWithinXZBounds2 b.c2 (getXZBounds m) = true := by
  unfold connectorBoxes at hb
  rcases List.mem_append.mp hb with hb | hb
  · unfold edgePillars3 at hb
    rcases List.mem_filterMap.mp hb with ⟨en, _, hsome⟩
    by_cases hcond : isWithinXZBounds2 (vadd en.v1 en.v2) (getXZBounds m) = true
    · rw [if_pos hcond] at hsome
      have hb2 := Option.some_inj.mp hsome
      rw [← hb2]
      show isWithinXZBounds2
        (vadd (vadd en.v1 en.v2) (0, 2 * yOffsetOf o, 0)) (getXZBounds m) = true
      rw [isWithinXZBounds2_shift_y]
      exact hcond
    · rw [if_neg hcond] at hsome
      exact absurd hsome (by simp)
  · unfold vertexPillars3 at hb
    rcases List.mem_filterMap.mp hb with ⟨v, _, hsome⟩
    by_cases hcond : isWithinXZBounds2 (vadd v v) (getXZBounds m) = true
    · rw [if_pos hcond] at hsome
      have hb2 := Option.some_inj.mp hsome
      rw [← hb2]
      show isWithinXZBounds2
        (vadd (vadd v v) (0, 2 * yOffsetOf o, 0)) (getXZBounds m) = true
      rw [isWithinXZBounds2_shift_y]
      exact hcond
    · rw [if_neg hcond] at hsome
      exact absurd hsome (by simp)

/-- C7 witness: the amended theorem applied to the first edge pillar the
pillar variant emits for the square. -/
theorem c7_footprint_amended_witness :
    (Box.mk (0, 2 * U, U) (EPS * 4, U, U) ∈ connectorBoxes ⟨U, true, false⟩ sqMesh) ∧
    isWithinXZBounds2 (0, 2 * U, U) (getXZBounds sqMesh) = true :=
  ⟨by decide,
    c7_footprint_amended ⟨U, true, false⟩ sqMesh ⟨(0, 2 * U, U), (EPS * 4, U, U)⟩
      (by decide)⟩

/-- C2: evaluation of the code at the failing input.  Expanding the unit cube
(y ∈ [0,1]) with `delta = 1`, `expandUp = true`, `expandDown = false`: the
modelled result of the pillar variant contains the point `(1/2, 9/4, 0)`
(given in doubled fixed-point coordinates), which lies outside the claimed
`1×2×1` box `[0,1]×[0,2]×[0,1]` — the top-edge pillars are centered at
`y = mid.y + delta` with half-extent `delta/2` and reach `y = 5/2`, so the
result is not the claimed box and the top face is not simply translated. -/
theorem c2_one_sided_eval :
    inResult3 ⟨U, true, false⟩ unitCube (U, 4500000000000, 0) = true ∧
    boxContains claimedBox121 (U, 4500000000000, 0) = false :=
  ⟨by decide, by decide⟩

/-- C4: the tolerance variant's face test computes
`d = dot(normal, targetDirection)` and classifies the face as aligned exactly
when `d > tolerance` or `d < -tolerance` (strict); a dot product exactly at
`±tolerance` is not aligned (for the spec's nonnegative tolerances); and the
decision is invariant under negating the target direction. -/
theorem c4_classifier (n t : QV3) (tol : ℚ) (htol : 0 ≤ tol) :
    (classifyAligned n t tol = true ↔ (dotQ n t > tol ∨ dotQ n t < -tol)) ∧
    ((dotQ n t = tol ∨ dotQ n t = -tol) → classifyAligned n t tol = false) ∧
    classifyAligned n t tol = classifyAligned n (smulQ (-1) t) tol := by
  have hneg : ∀ s : QV3, dotQ n (smulQ (-1) s) = -(dotQ n s) := by
    intro s
    unfold dotQ smulQ
    ring
  have hkey : ∀ s : QV3, classifyAligned n s tol = decide (|dotQ n s| > tol) := by
    intro s
    unfold classifyAligned
    rw [hneg s, abs_neg]
    exact Bool.or_self _
  refine ⟨?_, ?_, ?_⟩
  · rw [hkey t, decide_eq_true_eq]
    constructor
    · intro h
      rcases lt_abs.mp h with h2 | h2
      · exact Or.inl h2
      · exact Or.inr (by linarith)
    · intro h
      apply lt_abs.mpr
      rcases h with h2 | h2
      · exact Or.inl h2
      · exact Or.inr (by linarith)
  · intro h
    rw [hkey t]
    have habs : |dotQ n t| = tol := by
      rcases h with h2 | h2
      · rw [h2]
        exact abs_of_nonneg htol
      · rw [h2, abs_neg]
        exact abs_of_nonneg htol
    rw [habs]
    simp
  · have hdneg : smulQ (-1) (smulQ (-1) t) = t := by
      obtain ⟨t1, t2, t3⟩ := t
      simp only [smulQ, Prod.mk.injEq]
      refine ⟨by ring, by ring, by ring⟩
    rw [hkey t, hkey (smulQ (-1) t), hneg t, abs_neg]

/-- C4 witness: at the threshold (`dot = tolerance = 1`) the face is
classified not aligned. -/
theorem c4_classifier_witness :
    ((0 : ℚ) ≤ 1 ∧ dotQ ((0 : ℚ), 1, 0) ((0 : ℚ), 1, 0) = 1) ∧
    classifyAligned ((0 : ℚ), 1, 0) ((0 : ℚ), 1, 0) 1 = false :=
  ⟨⟨zero_le_one, by simp [dotQ]⟩,
    (c4_classifier ((0 : ℚ), 1, 0) ((0 : ℚ), 1, 0) 1 zero_le_one).2.1
      (Or.inl (by simp [dotQ]))⟩

/-- C10: if every polygon's (unit) normal satisfies `‖n‖² = 1` and the
tolerance is at least 1, the tolerance variant classifies every face as not
aligned (the dot product with a unit axis vector has absolute value at most
1, and the comparison is strict), so no face is extruded and the operation
returns the retessellated union of the original polygons one at a time. -/
theorem c10_tolerance_one {G : Type} (planeOf : QPoly → QV3) (unionG : G → G → G)
    (retess : G → G) (extrudeP : QV3 → QPoly → G) (singleG : QPoly → G) (emptyG : G)
    (o : OptsB) (polys : List QPoly)
    (htol : 1 ≤ o.tolerance)
    (hnormal : ∀ p ∈ polys, normSqQ (planeOf p) = 1) :
    expandDirectionalTol planeOf unionG retess extrudeP singleG emptyG o polys =
      retess (polys.foldl (fun result polygon => unionG result (singleG polygon))
        emptyG) := by
  unfold expandDirectionalTol
  congr 1
  apply List.foldl_ext
  intro acc p hp
  have hn := hnormal p hp
  have habs : |dotQ (planeOf p) (targetDirectionQ o.direction)| ≤ 1 := by
    set nv := planeOf p with hnv
    have hn2 : nv.1 * nv.1 + nv.2.1 * nv.2.1 + nv.2.2 * nv.2.2 = 1 := hn
    have h1 : nv.1 * nv.1 ≤ 1 := by
      nlinarith [mul_self_nonneg nv.2.1, mul_self_nonneg nv.2.2]
    have h2 : nv.2.1 * nv.2.1 ≤ 1 := by
      nlinarith [mul_self_nonneg nv.1, mul_self_nonneg nv.2.2]
    have h3 : nv.2.2 * nv.2.2 ≤ 1 := by
      nlinarith [mul_self_nonneg nv.1, mul_self_nonneg nv.2.1]
    unfold targetDirectionQ
    by_cases hx : o.direction = "x"
    · rw [if_pos hx, show dotQ nv ((1 : ℚ), 0, 0) = nv.1 from by unfold dotQ; ring]
      exact abs_le_one_iff_mul_self_le_one.mpr h1
    · rw [if_neg hx]
      by_cases hy : o.direction = "y"
      · rw [if_pos hy, show dotQ nv ((0 : ℚ), 1, 0) = nv.2.1 from by unfold dotQ; ring]
        exact abs_le_one_iff_mul_self_le_one.mpr h2
      · rw [if_neg hy]
        by_cases hz : o.direction = "z"
        · rw [if_pos hz,
            show dotQ nv ((0 : ℚ), 0, 1) = nv.2.2 from by unfold dotQ; ring]
          exact abs_le_one_iff_mul_self_le_one.mpr h3
        · rw [if_neg hz,
            show dotQ nv ((0 : ℚ), 1, 0) = nv.2.1 from by unfold dotQ; ring]
          exact abs_le_one_iff_mul_self_le_one.mpr h2
  have hcls : classifyAligned (planeOf p) (targetDirectionQ o.direction)
      o.tolerance = false := by
    unfold classifyAligned
    have hneg : dotQ (planeOf p) (smulQ (-1) (targetDirectionQ o.direction)) =
        -(dotQ (planeOf p) (targetDirectionQ o.direction)) := by
      unfold dotQ smulQ
      ring
    have hlt : ¬ (|dotQ (planeOf p) (targetDirectionQ o.direction)| > o.tolerance) :=
      not_lt.mpr (le_trans habs htol)
    rw [hneg, abs_neg]
    simp [hlt]
  simp [hcls]

/-- C10 witness: the theorem applied with list-of-polygons geometry, constant
plane oracle, append as union, identity retessellation, tolerance 1 and one
square: the result is the single original polygon. -/
theorem c10_tolerance_one_witness :
    ((1 : ℚ) ≤ 1 ∧ normSqQ ((0 : ℚ), 1, 0) = 1) ∧
    expandDirectionalTol (fun _ => ((0 : ℚ), 1, 0)) (fun a b => a ++ b) id
      (fun _ _ => ([] : List QPoly)) (fun p => [p]) ([] : List QPoly)
      ⟨1, "y", 1⟩ [[((0 : ℚ), (0 : ℚ), (0 : ℚ))]] =
      [[((0 : ℚ), (0 : ℚ), (0 : ℚ))]] :=
  ⟨⟨le_refl 1, by simp [normSqQ]⟩,
    (c10_tolerance_one (fun _ => ((0 : ℚ), 1, 0)) (fun a b => a ++ b) id
      (fun _ _ => ([] : List QPoly)) (fun p => [p]) ([] : List QPoly)
      ⟨1, "y", 1⟩ [[((0 : ℚ), (0 : ℚ), (0 : ℚ))]] (le_refl 1)
      (fun p _ => by simp [normSqQ])).trans rfl⟩
